import Mathlib

/-!
Verification of the note-cli auto-tagging core.

Shallow embedding of the rule store, match engine, filter pipeline, tag
reconciler, sync command and watch loop of the note-cli repository.
Document text is modelled as `List Char` (JavaScript string indices over
the ASCII inputs used here coincide with list indices).  JavaScript
`Set`s are modelled as insertion-ordered duplicate-free lists, matching
the iteration order that `Array.from` exposes.  The external wink-nlp
analyzer (tokenization, POS tags, entities, sentiment) is an explicit
parameter; everything else is translated directly from the source.
-/

/-- Document text: a list of characters (JS string code units; all inputs
used in concrete theorems are ASCII, where JS indices equal list indices). -/
abbrev Str := List Char

/-- Characters allowed in a tag name, the class `[a-zA-Z0-9\-_\/]` of the
tag regexes in `applicator.ts`. -/
def tagChar (c : Char) : Bool :=
  c.isAlpha || c.isDigit || c = '-' || c = '_' || c = '/'

/-- JS regex word character `\w`, i.e. `[A-Za-z0-9_]`, used by the `\b`
word boundary in `removeTags`. -/
def wordChar (c : Char) : Bool :=
  c.isAlpha || c.isDigit || c = '_'

/-- JS regex whitespace `\s` restricted to the ASCII whitespace characters. -/
def jsSpace (c : Char) : Bool :=
  c = ' ' || c = '\t' || c = '\n' || c = '\r' || c = '\x0b' || c = '\x0c'

/-- JS `String.prototype.toLowerCase` on ASCII text. -/
def lowerStr (s : Str) : Str := s.map Char.toLower

/-- JS `String.prototype.trim` (ASCII whitespace). -/
def jsTrim (s : Str) : Str :=
  ((s.dropWhile jsSpace).reverse.dropWhile jsSpace).reverse

/-- JS `content.split("\n")`. -/
def splitNl : Str → List Str
  | [] => [[]]
  | c :: cs =>
    if c = '\n' then [] :: splitNl cs
    else
      match splitNl cs with
      | [] => [[c]]
      | l :: ls => (c :: l) :: ls

/-- JS `lines.join("\n")`. -/
def joinNl (ls : List Str) : Str := (ls.intersperse ['\n']).flatten

/-- JS `hay.indexOf(needle, start)`: least index `i ≥ start` at which
`needle` occurs in `hay` (as `Option`; the source returns `-1` on failure). -/
def indexOfFrom (hay needle : Str) (start : Nat) : Option Nat :=
  (List.range (hay.length + 1)).find? fun i =>
    decide (start ≤ i) && needle.isPrefixOf (hay.drop i)

/-- JS `s.substring(i, j)` for `i ≤ j`. -/
def jsSubstring (s : Str) (i j : Nat) : Str := (s.drop i).take (j - i)

/-- Insert into an insertion-ordered duplicate-free list, modelling
`Set.prototype.add`. -/
def setAdd (s : List String) (x : String) : List String :=
  if x ∈ s then s else s ++ [x]

/-- Union a list of elements into an insertion-ordered set, in order. -/
def setAddAll (s : List String) (xs : List String) : List String :=
  xs.foldl setAdd s

/-! ### Data model (`types.ts`) -/

/-- The four rule kinds of the `Rule.type` string discriminant. -/
inductive RuleType
  | pattern
  | keyword
  | literal
  | entity
deriving DecidableEq, Repr, Inhabited

/-- The string stored in the `type` field for each rule kind. -/
def RuleType.str : RuleType → String
  | .pattern => "pattern"
  | .keyword => "keyword"
  | .literal => "literal"
  | .entity => "entity"

/-- A sentiment filter bound; the JS numbers are modelled as rationals
(the bounds compared by `validateRule` are exact values in `[-1, 1]`). -/
structure SentimentFilter where
  min : Option ℚ
  max : Option ℚ
  scope : Option String
deriving DecidableEq

/-- An entity requirement of `RuleFilters.requireEntity`. -/
structure EntityFilter where
  types : List String
  scope : Option String
deriving DecidableEq

/-- `RuleFilters` from `types.ts`. -/
structure RuleFilters where
  pos : Option (List String)
  requireEntity : Option (List EntityFilter)
  sentiment : Option SentimentFilter
deriving DecidableEq

/-- A stored rule (`Rule` in `types.ts`).  `matchStr` is the source's
`match` field (a Lean keyword); `useLemma`/`useStem` are the source's
optional `lemma`/`stem` booleans. -/
structure Rule where
  id : String
  type : RuleType
  matchStr : String
  useLemma : Option Bool := none
  useStem : Option Bool := none
  filters : Option RuleFilters := none
  tags : List String
  groups : Option (List String) := none
  enabled : Option Bool := none
  description : Option String := none
  created : String := ""
  modified : Option String := none
deriving DecidableEq, Inhabited

/-- The source checks `rule.enabled !== false` throughout. -/
def Rule.enabledOn (r : Rule) : Bool := r.enabled ≠ some false

/-- A match context (`MatchContext` in `types.ts`).  `endPos` is the
source's `end` field (a Lean keyword). -/
structure MatchContext where
  text : Str
  start : Nat
  endPos : Nat
  posTags : Option (List String) := none
deriving DecidableEq

/-- A token as produced by the analyzer: surface form with its POS tag
and lemma/stem forms (wink-nlp's `token.out(...)` views). -/
structure Token where
  surface : Str
  pos : String
  lemmaForm : Str
  stemForm : Str

/-- The external text analyzer (wink-nlp) as an explicit collaborator:
token stream, entity list (surface text and type label, in extraction
order), and the analyzer-dependent filter predicates (sentiment and
entity existence) used by `evaluateFilters` in `filters.ts`. -/
structure Analyzer where
  tokens : Str → List Token
  entityList : Str → List (Str × String)
  evalFilters : Str → MatchContext → RuleFilters → Bool

/-- `ProcessResult` from `types.ts`. -/
structure ProcessResult where
  modified : Bool
  addedTags : List String
  removedTags : List String
  matchedRules : List String
deriving DecidableEq

/-! ### Match engine (`nlp/processor.ts`) -/

/-- The scan loop of `matchLiteral`: repeatedly `indexOf` the lowercased
phrase from the current index and resume immediately past each hit.  The
source's `while` loop is given explicit fuel; each iteration advances the
index by the phrase length, so `text.length + 1` steps always suffice for
a non-empty phrase (for the empty phrase the source loops forever). -/
def litScan (text lowerText lowerPhrase : Str) : Nat → Nat → List MatchContext
  | _, 0 => []
  | idx, fuel + 1 =>
    match indexOfFrom lowerText lowerPhrase idx with
    | none => []
    | some i =>
      ⟨jsSubstring text i (i + lowerPhrase.length), i, i + lowerPhrase.length, none⟩
        :: litScan text lowerText lowerPhrase (i + lowerPhrase.length) fuel

/-- `matchLiteral` from `nlp/processor.ts`: case-insensitive substring
search, scanning left to right, resuming past each matched span. -/
def matchLiteral (text phrase : Str) : List MatchContext :=
  litScan text (lowerStr text) (lowerStr phrase) 0 (text.length + 1)

/-- `matchKeyword` from `nlp/processor.ts`: compare each token (surface,
or lemma/stem when the flag is set) case-insensitively against the
keyword; each hit's offset is recomputed as `text.indexOf(originalText)`
from position 0 (the source stores `-1` if the tokenizer returned text
not present in the document; tokenizers return substrings, and `0` is
used as the placeholder in that degenerate case). -/
def matchKeyword (A : Analyzer) (text : Str) (keyword : Str)
    (useLemma useStem : Bool) : List MatchContext :=
  let searchTerm := lowerStr keyword
  (A.tokens text).filterMap fun tok =>
    let tokenText :=
      if useLemma then lowerStr tok.lemmaForm
      else if useStem then lowerStr tok.stemForm
      else lowerStr tok.surface
    if tokenText = searchTerm then
      let start := (indexOfFrom text tok.surface 0).getD 0
      some ⟨tok.surface, start, start + tok.surface.length, some [tok.pos]⟩
    else none

/-- JS `s.split(/\s+/)`: split at each maximal run of whitespace (a
leading or trailing run yields an empty piece, as in JS).  Fuel: each
step consumes at least one character, so `s.length + 1` suffices. -/
def splitWsPlus : Str → Nat → List Str
  | s, 0 => [s]
  | s, fuel + 1 =>
    let head := s.takeWhile fun c => !jsSpace c
    let rest := s.dropWhile fun c => !jsSpace c
    match rest with
    | [] => [head]
    | _ :: rest2 => head :: splitWsPlus (rest2.dropWhile jsSpace) fuel

/-- The token-position recovery loop of `matchPOSPattern`: each token's
index is `text.indexOf(tokenText, currentPos)`, falling back to
`currentPos` when not found, and `currentPos` advances past found
tokens. -/
def posTokenIndices (text : Str) (toks : List Token) : List (Token × Nat) :=
  (toks.foldl
    (fun (acc : List (Token × Nat) × Nat) tok =>
      match indexOfFrom text tok.surface acc.2 with
      | some i => (acc.1 ++ [(tok, i)], i + tok.surface.length)
      | none => (acc.1 ++ [(tok, acc.2)], acc.2))
    ([], 0)).1

/-- The fixed-length window scan of `matchPOSPattern`: all window start
positions whose tokens' POS tags equal the expected sequence. -/
def posWindows (toks : List (Token × Nat)) (expected : List String) :
    List (List (Token × Nat)) :=
  (List.range (toks.length + 1 - expected.length)).filterMap fun i =>
    let w := (toks.drop i).take expected.length
    if w.map (fun t => t.1.pos) = expected then some w else none

/-- `matchPOSPattern` from `nlp/processor.ts`: split the pattern on
whitespace into expected POS tags, recover token offsets, and emit one
occurrence per window of tokens whose POS tags match; the occurrence text
joins the surfaces with single spaces and the end offset is `start`
plus that joined text's length. -/
def matchPOSPattern (A : Analyzer) (text : Str) (pattern : String) :
    List MatchContext :=
  let expected := (splitWsPlus pattern.data (pattern.data.length + 1)).map String.mk
  let toks := posTokenIndices text (A.tokens text)
  (posWindows toks expected).map fun w =>
    let matchedText := ((w.map (fun t => t.1.surface)).intersperse [' ']).flatten
    let start := (w.headD (⟨[], "", [], []⟩, 0)).2
    ⟨matchedText, start, start + matchedText.length, some (w.map (fun t => t.1.pos))⟩

/-- `extractEntities` from `nlp/processor.ts`: each analyzer entity with
its start recomputed as `text.indexOf(entityText)` from position 0. -/
def extractEntities (A : Analyzer) (text : Str) : List (Str × String × Nat) :=
  (A.entityList text).map fun e => (e.1, e.2, (indexOfFrom text e.1 0).getD 0)

/-- `matchEntity` from `nlp/processor.ts`. -/
def matchEntity (A : Analyzer) (text : Str) (entityType : String) :
    List MatchContext :=
  (extractEntities A text).filterMap fun e =>
    if e.2.1 = entityType then
      some ⟨e.1, e.2.2, e.2.2 + e.1.length, none⟩
    else none

/-- The `switch (rule.type)` dispatch of `applyRulesToContent`. -/
def rawMatches (A : Analyzer) (content : Str) (r : Rule) : List MatchContext :=
  match r.type with
  | .pattern => matchPOSPattern A content r.matchStr
  | .keyword =>
      matchKeyword A content r.matchStr.data
        (r.useLemma = some true) (r.useStem = some true)
  | .literal => matchLiteral content r.matchStr.data
  | .entity => matchEntity A content r.matchStr

/-- `applyFilters` from `rules/filters.ts`: no filter spec passes all
matches through; otherwise each match is kept iff `evaluateFilters`
accepts it (the filter predicates are analyzer-dependent). -/
def applyFilters (A : Analyzer) (fullText : Str) (ms : List MatchContext)
    (filters : Option RuleFilters) : List MatchContext :=
  match filters with
  | none => ms
  | some f => ms.filter fun m => A.evalFilters fullText m f

/-! ### Rule applicator (`rules/applicator.ts`) -/

/-- One step of `extractCodeBlocks`'s line loop: a line starting with
three backticks toggles the in-block flag; on closing, the block's range
runs from the opening line's offset to the end offset of the closing
line (`currentIndex + line.length`); `currentIndex` advances by
`line.length + 1` per line. -/
def codeBlocksLoop : List Str → Bool → Nat → Nat → List (Nat × Nat)
  | [], _, _, _ => []
  | line :: rest, inBlock, blockStart, currentIndex =>
    if ('`' :: '`' :: '`' :: []).isPrefixOf line then
      if !inBlock then
        codeBlocksLoop rest true currentIndex (currentIndex + line.length + 1)
      else
        (blockStart, currentIndex + line.length)
          :: codeBlocksLoop rest false blockStart (currentIndex + line.length + 1)
    else
      codeBlocksLoop rest inBlock blockStart (currentIndex + line.length + 1)

/-- `extractCodeBlocks` from `rules/applicator.ts`. -/
def extractCodeBlocks (content : Str) : List (Nat × Nat) :=
  codeBlocksLoop (splitNl content) false 0 0

/-- The `tagPattern.exec` loop of `extractExistingTags`: find each
occurrence of `#` followed by a maximal non-empty run of tag characters,
resuming after the match (`lastIndex` semantics).  Fuel: every step
consumes at least one character, so `content.length + 1` suffices. -/
def tagScan : Str → Nat → Nat → List (Nat × Str)
  | _, _, 0 => []
  | [], _, _ => []
  | c :: cs, i, fuel + 1 =>
    if c = '#' then
      let run := cs.takeWhile tagChar
      if run = [] then tagScan cs (i + 1) fuel
      else (i, run) :: tagScan (cs.drop run.length) (i + 1 + run.length) fuel
    else tagScan cs (i + 1) fuel

/-- The `inCodeBlock` test of `extractExistingTags`: the source's check
is inclusive at both ends (`matchIndex >= block.start && matchIndex <=
block.end`). -/
def inBlocks (blocks : List (Nat × Nat)) (i : Nat) : Bool :=
  blocks.any fun b => decide (b.1 ≤ i) && decide (i ≤ b.2)

/-- `extractExistingTags` from `rules/applicator.ts`: collect the names
of the scanned tag tokens whose match index does not lie in any code
block. -/
def extractExistingTags (content : Str) : List String :=
  let blocks := extractCodeBlocks content
  (tagScan content 0 (content.length + 1)).foldl
    (fun acc m =>
      if inBlocks blocks m.1 then acc
      else setAdd acc (String.mk m.2))
    []

/-- Parse one tag token `#[a-zA-Z0-9\-_\/]+` at the head of `s`,
returning the remainder (maximal munch, as the greedy regex). -/
def tagRunParse (s : Str) : Option Str :=
  match s with
  | c :: rest =>
    if c = '#' then
      let run := rest.takeWhile tagChar
      if run = [] then none else some (rest.drop run.length)
    else none
  | [] => none

/-- The continuation of the tag-line regex after its first token:
`(\s+#[a-zA-Z0-9\-_\/]+)*\s*$`.  Fuel: each step consumes at least one
character. -/
def tagLineRest : Str → Nat → Bool
  | [], _ => true
  | _, 0 => false
  | s, fuel + 1 =>
    let sp := s.takeWhile jsSpace
    if sp = [] then false
    else
      match s.drop sp.length with
      | [] => true
      | rest =>
        match tagRunParse rest with
        | some rest2 => tagLineRest rest2 fuel
        | none => false

/-- `existingTagLinePattern.test(line.trim())` of `insertTags`: the
regex `^#[a-zA-Z0-9\-_\/]+(\s+#[a-zA-Z0-9\-_\/]+)*\s*$` (tested on the
trimmed line).  Maximal-munch parsing coincides with the regex here
because after a tag-character run only whitespace, `#` or the end can
continue a successful parse. -/
def isTagLine (s : Str) : Bool :=
  match tagRunParse s with
  | some rest => tagLineRest rest (s.length + 1)
  | none => false

/-- `FrontmatterBounds` from `rules/applicator.ts`; `endIdx` and
`present` are the source's `end` and `exists` fields (Lean keywords). -/
structure FrontmatterBounds where
  start : Nat
  endIdx : Nat
  present : Bool
deriving DecidableEq

/-- `extractFrontmatter` from `rules/applicator.ts`, over the already
split lines: frontmatter exists when line 0 is exactly `---` and some
later line is exactly `---`; its end is that line's index plus one. -/
def extractFrontmatter (lines : List Str) : FrontmatterBounds :=
  match lines with
  | [] => ⟨0, 0, false⟩
  | l0 :: rest =>
    if l0 = "---".data then
      match List.findIdx? (fun l => l = "---".data) rest with
      | some j => ⟨0, j + 2, true⟩
      | none => ⟨0, 0, false⟩
    else ⟨0, 0, false⟩

/-- `insertTags` from `rules/applicator.ts`: append `#tag` tokens joined
by single spaces to the last tag-only line after any frontmatter, or
else insert a blank line and a new tag line before the trailing blank
lines (appending at the end when there are none). -/
def insertTags (content : Str) (tagsToAdd : List String) : Str :=
  if tagsToAdd = [] then content
  else
    let tagString := (String.intercalate " " (tagsToAdd.map fun t => "#" ++ t)).data
    let lines := splitNl content
    let fm := extractFrontmatter lines
    let startSearch := if fm.present then fm.endIdx else 0
    let tagIdxs := (List.range lines.length).filter fun i =>
      decide (startSearch ≤ i) && isTagLine (jsTrim (lines.getD i []))
    match tagIdxs.getLast? with
    | some i => joinNl (lines.set i (jsTrim (lines.getD i []) ++ ' ' :: tagString))
    | none =>
      let insertIndex :=
        lines.length - (lines.reverse.takeWhile fun l => jsTrim l = []).length
      if insertIndex = lines.length then joinNl (lines ++ [[], tagString])
      else joinNl (lines.take insertIndex ++ [[], tagString] ++ lines.drop insertIndex)

/-- Global replacement of the regex `#<tag>\b` by the empty string
(`escapeRegExp` makes the tag literal).  The word boundary after the
pattern holds iff exactly one of the last pattern character and the next
input character is a word character (a missing next character counts as
non-word).  Fuel: each step consumes at least one character. -/
def removeOne (tag : Str) : Str → Nat → Str
  | s, 0 => s
  | [], _ => []
  | c :: cs, fuel + 1 =>
    let pat := '#' :: tag
    let rest := (c :: cs).drop pat.length
    let nextIsWord := match rest.head? with
      | some c2 => wordChar c2
      | none => false
    if pat.isPrefixOf (c :: cs) && (wordChar (tag.getLastD '#') != nextIsWord) then
      removeOne tag rest fuel
    else c :: removeOne tag cs fuel

/-- The index of the last `\n` at position `≥ 1` of the whitespace run
starting the string: the greedy global regex `/\s+\n/` matches exactly
the prefix up to and including that newline. -/
def lastNlIdx (run : Str) : Option Nat :=
  ((List.range run.length).filter fun j =>
    decide (1 ≤ j) && decide (run.get? j = some '\n')).getLast?

/-- Global replacement of `/\s+\n/` by `"\n"` (the whitespace-before-
newline cleanup of `removeTags`).  Fuel: each step consumes at least one
character. -/
def wsNlReplace : Str → Nat → Str
  | s, 0 => s
  | [], _ => []
  | c :: cs, fuel + 1 =>
    match lastNlIdx ((c :: cs).takeWhile jsSpace) with
    | some j => '\n' :: wsNlReplace ((c :: cs).drop (j + 1)) fuel
    | none => c :: wsNlReplace cs fuel

/-- Global replacement of `/\n+$/` by `"\n"`: collapse a trailing run of
newlines to a single newline. -/
def trailNl (s : Str) : Str :=
  let r := s.reverse
  if r.head? = some '\n' then (r.dropWhile (· = '\n')).reverse ++ ['\n'] else s

/-- `removeTags` from `rules/applicator.ts`: delete every `#tag\b`
occurrence for each tag to remove, then clean up whitespace before
newlines and trailing newlines. -/
def removeTags (content : Str) (tagsToRemove : List String) : Str :=
  if tagsToRemove = [] then content
  else
    let result := tagsToRemove.foldl
      (fun acc tag => removeOne tag.data acc (acc.length + 1)) content
    trailNl (wsNlReplace result (result.length + 1))

/-- `applyRulesToContent` from `rules/applicator.ts`: over the enabled
rules in order, a rule whose filtered matches are non-empty contributes
its id to `matchedRules` and its tags to the `expectedTags` set. -/
def applyRulesToContent (A : Analyzer) (content : Str) (rules : List Rule) :
    List String × List String :=
  (rules.filter Rule.enabledOn).foldl
    (fun acc r =>
      let filtered := applyFilters A content (rawMatches A content r) r.filters
      if filtered.isEmpty then acc
      else (acc.1 ++ [r.id], setAddAll acc.2 r.tags))
    ([], [])

/-- The `allRuleTags` set of `processFile`: tags of all enabled rules,
fired or not. -/
def allRuleTagsOf (rules : List Rule) : List String :=
  rules.foldl (fun acc r => if r.enabledOn then setAddAll acc r.tags else acc) []

/-- `processFile`'s tags-to-remove: existing tags that are rule-managed
but no longer expected (in existing-set iteration order). -/
def tagsToRemoveOf (existing allRuleTags expected : List String) : List String :=
  existing.filter fun t => decide (t ∈ allRuleTags) && !decide (t ∈ expected)

/-- `processFile`'s tags-to-add: expected tags not present. -/
def tagsToAddOf (existing expected : List String) : List String :=
  expected.filter fun t => !decide (t ∈ existing)

/-- The pure core of `processFile` from `rules/applicator.ts`: compute
expected, existing and managed tags, remove managed-but-unexpected tags,
insert missing expected tags, and report the changes.  File I/O is
modelled by taking the file content and returning the new content (the
source writes it back only when modified; unmodified content is returned
unchanged). -/
def reconcile (A : Analyzer) (rules : List Rule) (content : Str) :
    ProcessResult × Str :=
  let mr := applyRulesToContent A content rules
  let existing := extractExistingTags content
  let art := allRuleTagsOf rules
  let rem := tagsToRemoveOf existing art mr.2
  let add := tagsToAddOf existing mr.2
  let content1 := if rem.isEmpty then content else removeTags content rem
  let content2 := if add.isEmpty then content1 else insertTags content1 add
  (⟨!rem.isEmpty || !add.isEmpty, add, rem, mr.1⟩, content2)

/-! ### Claim-side characterizations of tag extraction -/

/-- Declarative tag token: the maximal non-empty run of tag characters
after a `#` at index `i`, tested independently at every index. -/
def tagTokenAt (content : Str) (i : Nat) : Option Str :=
  if content.get? i = some '#' then
    let run := (content.drop (i + 1)).takeWhile tagChar
    if run = [] then none else some run
  else none

/-- All tag tokens of a document, by independent test at every index. -/
def specTagTokens (content : Str) : List (Nat × Str) :=
  (List.range content.length).filterMap fun i => (tagTokenAt content i).map ((i, ·))

/-- Code-block ranges as C5 words them: toggling on lines consisting
solely of the triple-backtick marker. -/
def solelyBlocksLoop : List Str → Bool → Nat → Nat → List (Nat × Nat)
  | [], _, _, _ => []
  | line :: rest, inBlock, blockStart, currentIndex =>
    if line = ['`', '`', '`'] then
      if !inBlock then
        solelyBlocksLoop rest true currentIndex (currentIndex + line.length + 1)
      else
        (blockStart, currentIndex + line.length)
          :: solelyBlocksLoop rest false blockStart (currentIndex + line.length + 1)
    else
      solelyBlocksLoop rest inBlock blockStart (currentIndex + line.length + 1)

/-- The tag set C5 describes, as written: names of tag tokens whose
index lies outside every `[start, end)` range delimited by lines that
consist solely of a triple-backtick marker. -/
def specExtractExistingTags (content : Str) : List String :=
  let blocks := solelyBlocksLoop (splitNl content) false 0 0
  ((specTagTokens content).filter fun m =>
    !(blocks.any fun b => decide (b.1 ≤ m.1) && decide (m.1 < b.2))).foldl
    (fun acc m => setAdd acc (String.mk m.2)) []

/-- The amended tag set: same tokens, excluded by the code's fences
(lines starting with three backticks, inclusive end offset). -/
def amendedTagSet (content : Str) : List String :=
  ((specTagTokens content).filter fun m =>
    !inBlocks (extractCodeBlocks content) m.1).foldl
    (fun acc m => setAdd acc (String.mk m.2)) []

/-! ### Rule engine (`rules/engine.ts`) -/

/-- Lowercase alphanumeric, the complement of the slug regex class
`[^a-z0-9]` (applied after lowercasing). -/
def alnumLower (c : Char) : Bool := (decide ('a' ≤ c) && decide (c ≤ 'z')) || c.isDigit

/-- Global replacement of `/[^a-z0-9]+/` by `-`: each maximal run of
non-alphanumerics becomes a single dash.  Fuel: each step consumes at
least one character. -/
def collapseRuns : Str → Nat → Str
  | s, 0 => s
  | [], _ => []
  | c :: cs, fuel + 1 =>
    if alnumLower c then c :: collapseRuns cs fuel
    else '-' :: collapseRuns (cs.dropWhile fun c2 => !alnumLower c2) fuel

/-- Global replacement of `/^-|-$/` by the empty string: remove one
leading and one trailing dash. -/
def trimDashes (s : Str) : Str :=
  let s1 := match s with
    | c :: cs => if c = '-' then cs else s
    | [] => []
  match s1.getLast? with
  | some c => if c = '-' then s1.dropLast else s1
  | none => s1

/-- The slug of `generateRuleId`: lowercase, collapse non-alphanumeric
runs to dashes, trim a leading/trailing dash, truncate to 50 characters. -/
def slugify (m : String) : String :=
  let l := lowerStr m.data
  String.mk ((trimDashes (collapseRuns l (l.length + 1))).take 50)

/-- `generateRuleId` from `rules/engine.ts`: the type string, a dash,
then the slugified match. -/
def generateRuleId (type : RuleType) (m : String) : String :=
  type.str ++ "-" ++ slugify m

/-- The collision loop of `ensureUniqueId`: try `baseId-2`, `baseId-3`,
… until the candidate is not an existing id.  The JS loop is unbounded;
`existingIds.length + 1` iterations always reach a free candidate
(`uniqLoop_reaches_free` below), so the fuel-exhausted branch is
unreachable from `ensureUniqueId`. -/
def uniqLoop (existingIds : List String) (baseId : String) : Nat → Nat → String
  | counter, 0 => baseId ++ "-" ++ Nat.repr counter
  | counter, fuel + 1 =>
    let id := baseId ++ "-" ++ Nat.repr counter
    if id ∈ existingIds then uniqLoop existingIds baseId (counter + 1) fuel else id

/-- `ensureUniqueId` from `rules/engine.ts`. -/
def ensureUniqueId (existingIds : List String) (baseId : String) : String :=
  if baseId ∈ existingIds then uniqLoop existingIds baseId 2 (existingIds.length + 1)
  else baseId

/-- `Omit<Rule, 'id' | 'created'>`, the argument of `addRule`. -/
structure NewRuleDraft where
  type : RuleType
  matchStr : String
  useLemma : Option Bool := none
  useStem : Option Bool := none
  filters : Option RuleFilters := none
  tags : List String
  groups : Option (List String) := none
  enabled : Option Bool := none
  description : Option String := none
deriving DecidableEq

/-- `addRule` from `rules/engine.ts`: generate the base id from type and
match, make it unique against the stored ids, default `enabled` to true,
stamp `created` (the timestamp is the explicit `now` argument), append
to the store and save.  Returns the new rule and the saved store. -/
def addRule (rules : List Rule) (draft : NewRuleDraft) (now : String) :
    Rule × List Rule :=
  let baseId := generateRuleId draft.type draft.matchStr
  let id := ensureUniqueId (rules.map (·.id)) baseId
  let newRule : Rule :=
    ⟨id, draft.type, draft.matchStr, draft.useLemma, draft.useStem, draft.filters,
      draft.tags, draft.groups, some (draft.enabled.getD true), draft.description,
      now, none⟩
  (newRule, rules ++ [newRule])

/-- `Partial<Omit<Rule, 'id' | 'type' | 'match' | 'created'>>`, the
updates argument of `updateRule`; a present field replaces the rule's. -/
structure RuleUpdates where
  useLemma : Option (Option Bool) := none
  useStem : Option (Option Bool) := none
  filters : Option (Option RuleFilters) := none
  tags : Option (List String) := none
  groups : Option (Option (List String)) := none
  enabled : Option Bool := none
  description : Option (Option String) := none
deriving DecidableEq

/-- The spread merge `{...rule, ...updates, modified: now}`. -/
def mergeRule (r : Rule) (u : RuleUpdates) (now : String) : Rule :=
  { r with
    useLemma := u.useLemma.getD r.useLemma
    useStem := u.useStem.getD r.useStem
    filters := u.filters.getD r.filters
    tags := u.tags.getD r.tags
    groups := u.groups.getD r.groups
    enabled := match u.enabled with | some b => some b | none => r.enabled
    description := u.description.getD r.description
    modified := some now }

/-- `updateRule` from `rules/engine.ts`: by id; a missing id returns
null without saving.  The third component records whether `saveConfig`
was called (i.e. whether the persisted store was rewritten). -/
def updateRule (rules : List Rule) (id : String) (u : RuleUpdates) (now : String) :
    Option Rule × List Rule × Bool :=
  match rules.findIdx? (fun r => r.id = id) with
  | none => (none, rules, false)
  | some i =>
    let merged := mergeRule (rules.getD i default) u now
    (some merged, rules.set i merged, true)

/-- `removeRule` from `rules/engine.ts`: filter the id out; save and
return true only if the store shrank.  The third component records
whether `saveConfig` was called. -/
def removeRule (rules : List Rule) (id : String) : Bool × List Rule × Bool :=
  let remaining := rules.filter fun r => r.id ≠ id
  if remaining.length < rules.length then (true, remaining, true)
  else (false, rules, false)

/-- `Partial<Rule>`, the argument of `validateRule`; `type` is the raw
string so that unknown rule types are representable. -/
structure RuleDraft where
  type : Option String := none
  matchStr : Option String := none
  useLemma : Option Bool := none
  useStem : Option Bool := none
  filters : Option RuleFilters := none
  tags : Option (List String) := none
deriving DecidableEq

/-- The error text of the lemma/stem conflict in `validateRule`. -/
def lemmaStemError : String := "Cannot use both lemma and stem options"

/-- The rule-type stage of `validateRule` (a missing or empty `type`
string is falsy in the source; the membership message is paraphrased
without quote characters). -/
def typeErrors (rule : RuleDraft) : List String :=
  match rule.type with
  | none => ["Rule type is required"]
  | some t =>
    if t = "" then ["Rule type is required"]
    else if t ∉ ["pattern", "keyword", "literal", "entity"] then
      ["Rule type must be pattern, keyword, literal, or entity"]
    else []

/-- The match stage of `validateRule` (`!rule.match ||
rule.match.trim().length === 0`; the empty string is falsy, so the
whole condition is: missing, or trims to empty). -/
def matchErrors (rule : RuleDraft) : List String :=
  match rule.matchStr with
  | none => ["Match pattern/keyword/phrase is required"]
  | some m => if jsTrim m.data = [] then ["Match pattern/keyword/phrase is required"] else []

/-- The tags stage of `validateRule`. -/
def tagsErrors (rule : RuleDraft) : List String :=
  match rule.tags with
  | none => ["At least one tag is required"]
  | some ts => if ts = [] then ["At least one tag is required"] else []

/-- The lemma/stem conflict stage of `validateRule`: the check fires
only when `rule.type === 'keyword'` and both flags are truthy. -/
def conflictErrors (rule : RuleDraft) : List String :=
  if rule.type = some "keyword" ∧ rule.useLemma = some true ∧ rule.useStem = some true then
    [lemmaStemError]
  else []

/-- The sentiment-bounds stage of `validateRule`. -/
def sentimentErrors (rule : RuleDraft) : List String :=
  match rule.filters.bind (·.sentiment) with
  | none => []
  | some s =>
    (match s.min with
     | some mn => if mn < -1 ∨ mn > 1 then ["Sentiment min must be between -1 and 1"] else []
     | none => []) ++
    (match s.max with
     | some mx => if mx < -1 ∨ mx > 1 then ["Sentiment max must be between -1 and 1"] else []
     | none => []) ++
    (match s.min, s.max with
     | some mn, some mx =>
       if mn > mx then ["Sentiment min must be less than or equal to max"] else []
     | _, _ => [])

/-- `validateRule` from `rules/engine.ts`: the source pushes each
stage's messages onto one `errors` array in this order and returns
`valid` iff that array is empty. -/
def validateRule (rule : RuleDraft) : Bool × List String :=
  let errors := typeErrors rule ++ matchErrors rule ++ tagsErrors rule ++
    conflictErrors rule ++ sentimentErrors rule
  (errors = [], errors)

/-! ### Sync command (dry-run branch of `syncCommand`) -/

/-- The dry-run branch of `syncCommand`: read the file, compute expected
and existing tags, collect `allRuleTags` over all passed rules (without
the enabled check that `processFile` performs) and report the tags to
add and to remove, writing nothing. -/
def dryRunFile (A : Analyzer) (rules : List Rule) (content : Str) :
    List String × List String :=
  let mr := applyRulesToContent A content rules
  let existing := extractExistingTags content
  let art := rules.foldl (fun acc r => setAddAll acc r.tags) []
  (tagsToAddOf existing mr.2, tagsToRemoveOf existing art mr.2)

/-- A real `sync` over a directory, as a map over the files' contents:
per-file report plus the on-disk contents after the run. -/
def syncDirReal (A : Analyzer) (rules : List Rule) (files : List Str) :
    List ProcessResult × List Str :=
  (files.map fun c => (reconcile A rules c).1,
   files.map fun c => (reconcile A rules c).2)

/-- A `sync --dry-run` over a directory: per-file report of tags to add
and to remove; the dry-run branch contains no write, so the contents
are returned unchanged. -/
def syncDirDry (A : Analyzer) (rules : List Rule) (files : List Str) :
    List (List String × List String) × List Str :=
  (files.map (dryRunFile A rules), files)

/-! ### Watch loop (debounce timer body of `watchFiles`) -/

/-- `Map.set` on an association list preserving insertion order. -/
def setEntry (m : List (String × String)) (k v : String) : List (String × String) :=
  if m.any (fun e => e.1 = k) then m.map fun e => if e.1 = k then (k, v) else e
  else m ++ [(k, v)]

/-- `Map.get` on an association list. -/
def lookupEntry (m : List (String × String)) (k : String) : Option String :=
  (m.find? fun e => e.1 = k).map (·.2)

/-- The outcome of one debounce-timer firing: whether the reconciler
ran, the in-memory `state.processedFiles` map, and the on-disk
(persisted) map. -/
structure TimerOutcome where
  ran : Bool
  mem : List (String × String)
  disk : List (String × String)
deriving DecidableEq

/-- The body of the debounce timer in `watchFiles`
(`processFileDebounced`): if the current content hash is non-empty and
differs from the stored hash, run the reconciler; when it modified the
file, store the re-computed hash (`hashAfterProcessing`) in the
in-memory map and persist the map (`saveWatcherState`); when it did not,
store `currentHash` in the in-memory map only — the disk state is not
rewritten on that path. -/
def timerFire (mem disk : List (String × String)) (path currentHash : String)
    (modified : Bool) (hashAfterProcessing : String) : TimerOutcome :=
  if currentHash ≠ "" ∧ lookupEntry mem path ≠ some currentHash then
    if modified then
      let mem2 := setEntry mem path hashAfterProcessing
      ⟨true, mem2, mem2⟩
    else ⟨true, setEntry mem path currentHash, disk⟩
  else ⟨false, mem, disk⟩

/-! ### A concrete analyzer for counterexamples -/

/-- A deterministic whitespace tokenizer: the document's maximal
whitespace-free words, in order, each its own lemma and stem, POS-tagged
`NOUN`.  It satisfies the analyzer contract of the specification
(tokens in document order, surfaces recoverable in the text). -/
def toyTokens (text : Str) : List Token :=
  ((splitWsPlus text (text.length + 1)).filter fun w => w ≠ []).map
    fun w => ⟨w, "NOUN", w, w⟩

/-- A concrete analyzer: whitespace tokens, no entities, all filters
pass. -/
def toyAnalyzer : Analyzer := ⟨toyTokens, fun _ => [], fun _ _ _ => true⟩

/-! ### Decimal representation facts (for id-collision counters) -/

/-- Numeric value of a decimal digit character. -/
def digitVal (c : Char) : Nat := c.toNat - '0'.toNat

/-- Decimal value of a digit string. -/
def decodeDigits (l : List Char) : Nat := l.foldl (fun a c => 10 * a + digitVal c) 0

theorem digitVal_digitChar (m : Nat) (h : m < 10) : digitVal (Nat.digitChar m) = m := by
  interval_cases m <;> decide

theorem toDigitsCore_append (fuel : Nat) : ∀ (n : Nat) (ds : List Char),
    Nat.toDigitsCore 10 fuel n ds = Nat.toDigitsCore 10 fuel n [] ++ ds := by
  induction fuel with
  | zero => intro n ds; simp [Nat.toDigitsCore]
  | succ f ih =>
    intro n ds
    simp only [Nat.toDigitsCore]
    by_cases h : n / 10 = 0
    · simp [h]
    · rw [if_neg h, if_neg h, ih (n / 10) [Nat.digitChar (n % 10)],
        ih (n / 10) (Nat.digitChar (n % 10) :: ds), List.append_assoc]
      rfl

theorem decodeDigits_concat (l : List Char) (c : Char) :
    decodeDigits (l ++ [c]) = 10 * decodeDigits l + digitVal c := by
  simp [decodeDigits, List.foldl_append]

theorem decode_toDigitsCore : ∀ (fuel n : Nat), n < fuel →
    decodeDigits (Nat.toDigitsCore 10 fuel n []) = n := by
  intro fuel
  induction fuel with
  | zero => intro n hn; omega
  | succ f ih =>
    intro n hn
    simp only [Nat.toDigitsCore]
    by_cases h : n / 10 = 0
    · have hlt : n < 10 := (Nat.div_eq_zero_iff (by norm_num)).1 h
      rw [if_pos h]
      show decodeDigits [Nat.digitChar (n % 10)] = n
      have : decodeDigits [Nat.digitChar (n % 10)] = digitVal (Nat.digitChar (n % 10)) := by
        simp [decodeDigits]
      rw [this, Nat.mod_eq_of_lt hlt, digitVal_digitChar n hlt]
    · have hpos : 0 < n := by
        rcases Nat.eq_zero_or_pos n with h0 | h0
        · exact absurd (by simp [h0]) h
        · exact h0
      have hdiv : n / 10 < n := Nat.div_lt_self hpos (by norm_num)
      rw [if_neg h, toDigitsCore_append, decodeDigits_concat,
        ih (n / 10) (by omega), digitVal_digitChar (n % 10) (Nat.mod_lt _ (by norm_num))]
      omega

theorem natRepr_injective : Function.Injective Nat.repr := by
  intro m n h
  have hd : Nat.toDigits 10 m = Nat.toDigits 10 n := congrArg String.data h
  unfold Nat.toDigits at hd
  have := congrArg decodeDigits hd
  rwa [decode_toDigitsCore (m + 1) m (Nat.lt_succ_self m),
    decode_toDigitsCore (n + 1) n (Nat.lt_succ_self n)] at this

theorem candidate_injective (base : String) :
    Function.Injective (fun k => base ++ "-" ++ Nat.repr k) := by
  intro a b h
  apply natRepr_injective
  have h2 := congrArg String.data h
  simp only [String.data_append] at h2
  rw [List.append_assoc, List.append_assoc] at h2
  have h3 := List.append_cancel_left (List.append_cancel_left h2)
  exact String.ext h3

/-! ### Uniqueness of generated rule ids -/

theorem exists_free_candidate (existing : List String) (base : String) (c0 : Nat) :
    ∃ j, c0 ≤ j ∧ j < c0 + existing.length + 1 ∧ (base ++ "-" ++ Nat.repr j) ∉ existing := by
  by_contra hall
  push_neg at hall
  have hinj : Function.Injective (fun i : ℕ => base ++ "-" ++ Nat.repr (c0 + i)) := by
    intro x y hxy
    have := candidate_injective base hxy
    omega
  have hsub : (Finset.range (existing.length + 1)).image
      (fun i => base ++ "-" ++ Nat.repr (c0 + i)) ⊆ existing.toFinset := by
    intro x hx
    simp only [Finset.mem_image, Finset.mem_range] at hx
    obtain ⟨i, hi, rfl⟩ := hx
    exact List.mem_toFinset.2 (hall (c0 + i) (by omega) (by omega))
  have hcard := Finset.card_le_card hsub
  rw [Finset.card_image_of_injective _ hinj, Finset.card_range] at hcard
  have := List.toFinset_card_le existing
  omega

theorem uniqLoop_reaches_free (existing : List String) (base : String) :
    ∀ (fuel c0 : Nat),
      (∃ j, c0 ≤ j ∧ j < c0 + fuel ∧ (base ++ "-" ++ Nat.repr j) ∉ existing) →
      uniqLoop existing base c0 fuel ∉ existing ∧
      ∃ k, c0 ≤ k ∧ uniqLoop existing base c0 fuel = base ++ "-" ++ Nat.repr k ∧
        ∀ j, c0 ≤ j → j < k → (base ++ "-" ++ Nat.repr j) ∈ existing := by
  intro fuel
  induction fuel with
  | zero =>
    intro c0 h
    obtain ⟨j, h1, h2, _⟩ := h
    omega
  | succ f ih =>
    intro c0 h
    simp only [uniqLoop]
    by_cases hc : (base ++ "-" ++ Nat.repr c0) ∈ existing
    · rw [if_pos hc]
      have h2 : ∃ j, c0 + 1 ≤ j ∧ j < (c0 + 1) + f ∧ (base ++ "-" ++ Nat.repr j) ∉ existing := by
        obtain ⟨j, hj1, hj2, hj3⟩ := h
        have hne : j ≠ c0 := by
          intro he
          exact hj3 (he ▸ hc)
        exact ⟨j, by omega, by omega, hj3⟩
      obtain ⟨hfree, k, hk1, hk2, hk3⟩ := ih (c0 + 1) h2
      refine ⟨hfree, k, by omega, hk2, fun j hj1 hj2 => ?_⟩
      by_cases hj : j = c0
      · exact hj ▸ hc
      · exact hk3 j (by omega) hj2
    · rw [if_neg hc]
      exact ⟨hc, c0, le_refl _, rfl, fun j h1 h2 => absurd (lt_of_le_of_lt h1 h2) (lt_irrefl c0)⟩

theorem ensureUniqueId_spec (existing : List String) (base : String) :
    ensureUniqueId existing base ∉ existing ∧
    ((base ∉ existing ∧ ensureUniqueId existing base = base) ∨
     (base ∈ existing ∧ ∃ k, 2 ≤ k ∧
       ensureUniqueId existing base = base ++ "-" ++ Nat.repr k ∧
       ∀ j, 2 ≤ j → j < k → (base ++ "-" ++ Nat.repr j) ∈ existing)) := by
  unfold ensureUniqueId
  by_cases hb : base ∈ existing
  · rw [if_pos hb]
    obtain ⟨j, h1, h2, h3⟩ := exists_free_candidate existing base 2
    obtain ⟨hfree, k, hk1, hk2, hk3⟩ :=
      uniqLoop_reaches_free existing base (existing.length + 1) 2 ⟨j, h1, by omega, h3⟩
    exact ⟨hfree, Or.inr ⟨hb, k, hk1, hk2, hk3⟩⟩
  · rw [if_neg hb]
    exact ⟨hb, Or.inl ⟨hb, rfl⟩⟩

/-! ### Literal matching: ordering, non-overlap, bound -/

theorem indexOfFrom_some {hay needle : Str} {start i : Nat}
    (h : indexOfFrom hay needle start = some i) :
    start ≤ i ∧ needle.isPrefixOf (hay.drop i) = true := by
  have := List.find?_some h
  simpa [Bool.and_eq_true, decide_eq_true_eq] using this

theorem indexOfFrom_some_bound {hay needle : Str} {start i : Nat}
    (h : indexOfFrom hay needle start = some i) (hne : needle ≠ []) :
    i + needle.length ≤ hay.length := by
  obtain ⟨-, hpre⟩ := indexOfFrom_some h
  have hlen := (List.isPrefixOf_iff_prefix.1 hpre).length_le
  rw [List.length_drop] at hlen
  have : 1 ≤ needle.length := List.length_pos.2 hne
  omega

theorem litScan_mem {text lowerText lowerPhrase : Str} (hne : lowerPhrase ≠ []) :
    ∀ (fuel idx : Nat) (m : MatchContext),
      m ∈ litScan text lowerText lowerPhrase idx fuel →
      idx ≤ m.start ∧ m.endPos = m.start + lowerPhrase.length ∧
        m.endPos ≤ lowerText.length ∧
        lowerPhrase.isPrefixOf (lowerText.drop m.start) = true ∧
        m.text = jsSubstring text m.start m.endPos ∧ m.posTags = none := by
  intro fuel
  induction fuel with
  | zero => intro idx m hm; simp [litScan] at hm
  | succ f ih =>
    intro idx m hm
    simp only [litScan] at hm
    cases hfind : indexOfFrom lowerText lowerPhrase idx with
    | none => rw [hfind] at hm; simp at hm
    | some i =>
      rw [hfind] at hm
      obtain ⟨hle, hpre⟩ := indexOfFrom_some hfind
      have hbound := indexOfFrom_some_bound hfind hne
      rcases List.mem_cons.1 hm with rfl | hm2
      · exact ⟨hle, rfl, hbound, hpre, rfl, rfl⟩
      · obtain ⟨h1, h2, h3, h4, h5, h6⟩ := ih (i + lowerPhrase.length) m hm2
        exact ⟨by omega, h2, h3, h4, h5, h6⟩

theorem litScan_pairwise {text lowerText lowerPhrase : Str} (hne : lowerPhrase ≠ []) :
    ∀ (fuel idx : Nat),
      (litScan text lowerText lowerPhrase idx fuel).Pairwise
        (fun a b => a.endPos ≤ b.start) := by
  intro fuel
  induction fuel with
  | zero => intro idx; simp [litScan]
  | succ f ih =>
    intro idx
    simp only [litScan]
    cases hfind : indexOfFrom lowerText lowerPhrase idx with
    | none => simp
    | some i =>
      refine List.pairwise_cons.2 ⟨fun m hm => ?_, ih (i + lowerPhrase.length)⟩
      exact (litScan_mem hne f (i + lowerPhrase.length) m hm).1

theorem litScan_length_le {text lowerText lowerPhrase : Str} (hne : lowerPhrase ≠ []) :
    ∀ (fuel idx : Nat),
      (litScan text lowerText lowerPhrase idx fuel).length ≤
        (lowerText.length - idx) / lowerPhrase.length := by
  intro fuel
  induction fuel with
  | zero => intro idx; simp [litScan]
  | succ f ih =>
    intro idx
    simp only [litScan]
    cases hfind : indexOfFrom lowerText lowerPhrase idx with
    | none => simp
    | some i =>
      simp only [List.length_cons]
      obtain ⟨hle, -⟩ := indexOfFrom_some hfind
      have hbound := indexOfFrom_some_bound hfind hne
      have hL : 0 < lowerPhrase.length := List.length_pos.2 hne
      have hstep := ih (i + lowerPhrase.length)
      have heq : (lowerText.length - i) / lowerPhrase.length =
          (lowerText.length - (i + lowerPhrase.length)) / lowerPhrase.length + 1 := by
        have := Nat.div_eq_sub_div hL (show lowerPhrase.length ≤ lowerText.length - i by omega)
        rw [Nat.sub_sub] at this
        exact this
      have hmono : (lowerText.length - i) / lowerPhrase.length ≤
          (lowerText.length - idx) / lowerPhrase.length :=
        Nat.div_le_div_right (by omega)
      omega

/-! ### The cursor-based tag scan finds exactly the per-index tag tokens -/

theorem tagChar_ne_hash {c : Char} (h : tagChar c = true) : c ≠ '#' := by
  intro rfl_eq
  rw [rfl_eq] at h
  simp [tagChar] at h

theorem takeWhile_mem_get? {p : Char → Bool} :
    ∀ (l : Str) (j : Nat), j < (l.takeWhile p).length →
      ∃ c, l.get? j = some c ∧ p c = true := by
  intro l
  induction l with
  | nil => intro j h; simp at h
  | cons a l' ih =>
    intro j h
    by_cases hp : p a
    · rw [List.takeWhile_cons, if_pos hp] at h
      cases j with
      | zero => exact ⟨a, rfl, hp⟩
      | succ j' =>
        simp only [List.length_cons, Nat.succ_lt_succ_iff] at h
        obtain ⟨c, h1, h2⟩ := ih j' h
        exact ⟨c, by simpa using h1, h2⟩
    · rw [List.takeWhile_cons, if_neg hp] at h
      simp at h

theorem tagTokenAt_cons_succ (c : Char) (cs : Str) (j : Nat) :
    tagTokenAt (c :: cs) (j + 1) = tagTokenAt cs j := by
  unfold tagTokenAt
  rw [List.get?_cons_succ]
  have : (c :: cs).drop (j + 1 + 1) = cs.drop (j + 1) := List.drop_succ_cons
  rw [this]

theorem tagTokenAt_drop (cs : Str) (n : Nat) :
    ∀ j, tagTokenAt (cs.drop n) j = tagTokenAt cs (n + j) := by
  induction n generalizing cs with
  | zero => intro j; simp
  | succ n' ih =>
    intro j
    cases cs with
    | nil => simp [tagTokenAt]
    | cons c cs' =>
      rw [List.drop_succ_cons, ih cs' j]
      have : n' + 1 + j = (n' + j) + 1 := by omega
      rw [this, tagTokenAt_cons_succ]

/-- The per-index token list of the suffix `cs` of the document, with
indices reported relative to absolute offset `i`. -/
def specTagTokensFrom (cs : Str) (i : Nat) : List (Nat × Str) :=
  (List.range cs.length).filterMap fun j => (tagTokenAt cs j).map fun r => (i + j, r)

theorem specTagTokensFrom_zero (content : Str) :
    specTagTokens content = specTagTokensFrom content 0 := by
  unfold specTagTokens specTagTokensFrom
  simp

theorem specTagTokensFrom_cons (c : Char) (cs : Str) (i : Nat) :
    specTagTokensFrom (c :: cs) i =
      (match tagTokenAt (c :: cs) 0 with
        | some run => [(i, run)]
        | none => []) ++ specTagTokensFrom cs (i + 1) := by
  unfold specTagTokensFrom
  rw [List.length_cons, List.range_succ_eq_map, List.filterMap_cons, List.filterMap_map]
  have hfun : ((fun j => (tagTokenAt (c :: cs) j).map fun r => (i + j, r)) ∘ Nat.succ) =
      fun j => (tagTokenAt cs j).map fun r => (i + 1 + j, r) := by
    funext j
    simp only [Function.comp]
    rw [show Nat.succ j = j + 1 from rfl, tagTokenAt_cons_succ]
    congr 1
    funext r
    have : i + (j + 1) = i + 1 + j := by omega
    rw [this]
  rw [hfun]
  cases h0 : tagTokenAt (c :: cs) 0 with
  | none => simp
  | some run => simp

theorem specTagTokensFrom_drop (cs : Str) (n i : Nat)
    (hnone : ∀ j, j < n → tagTokenAt cs j = none) (hn : n ≤ cs.length) :
    specTagTokensFrom cs i = specTagTokensFrom (cs.drop n) (i + n) := by
  unfold specTagTokensFrom
  have hsplit : cs.length = n + (cs.length - n) := by omega
  rw [hsplit, List.range_add, List.filterMap_append, List.filterMap_map]
  have h1 : (List.filterMap (fun j => (tagTokenAt cs j).map fun r => (i + j, r))
      (List.range n)) = [] := by
    rw [List.filterMap_eq_nil_iff]
    intro j hj
    rw [hnone j (List.mem_range.1 hj)]
    rfl
  have h2 : ((fun j => (tagTokenAt cs j).map fun r => (i + j, r)) ∘ fun x => n + x) =
      fun j => (tagTokenAt (cs.drop n) j).map fun r => (i + n + j, r) := by
    funext j
    simp only [Function.comp]
    rw [tagTokenAt_drop]
    congr 1
    funext r
    have : i + (n + j) = i + n + j := by omega
    rw [this]
  rw [h1, h2, List.length_drop]
  simp

theorem tagScan_eq_spec :
    ∀ (fuel : Nat) (cs : Str) (i : Nat), cs.length ≤ fuel →
      tagScan cs i fuel = specTagTokensFrom cs i := by
  intro fuel
  induction fuel with
  | zero =>
    intro cs i h
    have : cs = [] := List.length_eq_zero.1 (by omega)
    subst this
    simp [tagScan, specTagTokensFrom]
  | succ f ih =>
    intro cs i h
    cases cs with
    | nil => simp [tagScan, specTagTokensFrom]
    | cons c cs' =>
      rw [specTagTokensFrom_cons]
      by_cases hc : c = '#'
      · subst hc
        by_cases hrun : cs'.takeWhile tagChar = []
        · have hscan : tagScan ('#' :: cs') i (f + 1) = tagScan cs' (i + 1) f := by
            simp [tagScan, hrun]
          have htok : tagTokenAt ('#' :: cs') 0 = none := by
            simp [tagTokenAt, hrun]
          rw [hscan, htok, ih cs' (i + 1) (by simpa using Nat.le_of_succ_le_succ h)]
          simp
        · have hscan : tagScan ('#' :: cs') i (f + 1) =
              (i, cs'.takeWhile tagChar) ::
                tagScan (cs'.drop (cs'.takeWhile tagChar).length)
                  (i + 1 + (cs'.takeWhile tagChar).length) f := by
            simp [tagScan, hrun]
          have htok : tagTokenAt ('#' :: cs') 0 = some (cs'.takeWhile tagChar) := by
            simp [tagTokenAt, hrun]
          rw [hscan, htok]
          have hlen : (cs'.takeWhile tagChar).length ≤ cs'.length :=
        (List.takeWhile_prefix tagChar).length_le
          have hdrop : (cs'.drop (cs'.takeWhile tagChar).length).length ≤ f := by
            rw [List.length_drop]
            have : cs'.length ≤ f := by simpa using Nat.le_of_succ_le_succ h
            omega
          rw [ih _ _ hdrop]
          have hshift := specTagTokensFrom_drop cs' (cs'.takeWhile tagChar).length (i + 1)
            (fun j hj => by
              obtain ⟨ch, hg, hp⟩ := takeWhile_mem_get? cs' j hj
              unfold tagTokenAt
              rw [hg]
              have : ch ≠ '#' := tagChar_ne_hash hp
              simp [this])
            hlen
          rw [hshift]
          have : i + 1 + (cs'.takeWhile tagChar).length =
              i + 1 + (cs'.takeWhile tagChar).length := rfl
          simp
      · have hscan : tagScan (c :: cs') i (f + 1) = tagScan cs' (i + 1) f := by
          simp [tagScan, hc]
        have htok : tagTokenAt (c :: cs') 0 = none := by
          simp [tagTokenAt, hc]
        rw [hscan, htok, ih cs' (i + 1) (by simpa using Nat.le_of_succ_le_succ h)]
        simp

theorem foldl_skip_eq_filter_foldl (p : Nat × Str → Bool) :
    ∀ (l : List (Nat × Str)) (acc : List String),
      l.foldl (fun acc m => if p m then acc else setAdd acc (String.mk m.2)) acc =
      (l.filter fun m => !p m).foldl (fun acc m => setAdd acc (String.mk m.2)) acc := by
  intro l
  induction l with
  | nil => intro acc; rfl
  | cons a l' ih =>
    intro acc
    by_cases hp : p a
    · simp [List.filter_cons, hp, ih]
    · simp [List.filter_cons, hp, ih]

/-- C5 (amended): for every document, `extractExistingTags` returns
exactly the (insertion-ordered, duplicate-free) names of the tokens
matching `#` followed by one or more of `[A-Za-z0-9\-_\/]` — tested
independently at every index — whose position lies outside every fenced
code block, where a fenced block is delimited by a line *starting with*
a triple-backtick marker (not a line consisting solely of one, as the
claim states — see `solely_fence_counterexample`), toggling in/out as
lines are scanned; an unclosed opening fence produces no range, and the
code's exclusion range is the inclusive `[start, end]` (the character at
offset `end` is a newline or the end of input, so no tag token can start
there and this coincides with `[start, end)`). -/
theorem extractExistingTags_eq_amendedTagSet (content : Str) :
    extractExistingTags content = amendedTagSet content := by
  unfold extractExistingTags amendedTagSet
  rw [tagScan_eq_spec (content.length + 1) content 0 (by omega),
    ← specTagTokensFrom_zero,
    foldl_skip_eq_filter_foldl (fun m => inBlocks (extractCodeBlocks content) m.1)]

/-! ### Set-level facts about the reconciliation diff -/

theorem mem_tagsToRemoveOf {t : String} {ex art exp : List String} :
    t ∈ tagsToRemoveOf ex art exp ↔ t ∈ ex ∧ t ∈ art ∧ t ∉ exp := by
  simp [tagsToRemoveOf, List.mem_filter, and_assoc]

theorem mem_tagsToAddOf {t : String} {ex exp : List String} :
    t ∈ tagsToAddOf ex exp ↔ t ∈ exp ∧ t ∉ ex := by
  simp [tagsToAddOf, List.mem_filter]

/-! ### C4 support: the enabled-filter is vacuous over all-enabled rules -/

theorem foldl_setAddAll_enabled :
    ∀ (rules : List Rule) (acc : List String), (∀ r ∈ rules, r.enabledOn = true) →
      rules.foldl (fun acc r => if r.enabledOn then setAddAll acc r.tags else acc) acc =
      rules.foldl (fun acc r => setAddAll acc r.tags) acc := by
  intro rules
  induction rules with
  | nil => intro acc _; rfl
  | cons r rest ih =>
    intro acc hen
    simp only [List.foldl_cons, hen r (List.mem_cons_self r rest)]
    exact ih _ fun r2 h2 => hen r2 (List.mem_cons_of_mem r h2)

theorem allRuleTags_all_enabled (rules : List Rule)
    (hen : ∀ r ∈ rules, r.enabledOn = true) :
    rules.foldl (fun acc r => setAddAll acc r.tags) [] = allRuleTagsOf rules := by
  unfold allRuleTagsOf
  exact (foldl_setAddAll_enabled rules [] hen).symm

/-! ### C7 support: map update and lookup -/

theorem lookupEntry_cons (e : String × String) (l : List (String × String)) (k : String) :
    lookupEntry (e :: l) k = if e.1 = k then some e.2 else lookupEntry l k := by
  by_cases h : e.1 = k
  · simp [lookupEntry, List.find?_cons_of_pos, h]
  · simp [lookupEntry, List.find?_cons_of_neg, h]

theorem setEntry_lookup (m : List (String × String)) (k v : String) :
    lookupEntry (setEntry m k v) k = some v := by
  induction m with
  | nil => simp [setEntry, lookupEntry]
  | cons e rest ih =>
    by_cases he : e.1 = k
    · have hany : (e :: rest).any (fun x => x.1 = k) = true := by
        simp [List.any_cons, he]
      simp only [setEntry, hany, if_true, List.map_cons, if_pos he]
      rw [lookupEntry_cons]
      simp
    · by_cases hr : rest.any (fun x => x.1 = k)
      · have hany : (e :: rest).any (fun x => x.1 = k) = true := by
          simp only [List.any_cons, hr, Bool.or_true]
        have hrest : setEntry rest k v = rest.map fun x => if x.1 = k then (k, v) else x := by
          simp [setEntry, hr]
        simp only [setEntry, hany, if_true, List.map_cons, if_neg he]
        rw [lookupEntry_cons, if_neg he, ← hrest, ih]
      · have hany : (e :: rest).any (fun x => x.1 = k) = false := by
          simp [List.any_cons, he, hr]
        have hrest : setEntry rest k v = rest ++ [(k, v)] := by
          simp [setEntry, hr]
        simp only [setEntry, hany, Bool.false_eq_true, if_false, List.cons_append]
        rw [lookupEntry_cons, if_neg he, ← hrest, ih]

/-! ### C10 support -/

theorem findIdx?_eq_none_of_all {α : Type} {p : α → Bool} :
    ∀ {l : List α}, (∀ x ∈ l, p x = false) → l.findIdx? p = none := by
  intro l
  induction l with
  | nil => intro _; rfl
  | cons a rest ih =>
    intro h
    rw [List.findIdx?_cons, h a (List.mem_cons_self a rest)]
    simp [ih fun x hx => h x (List.mem_cons_of_mem a hx)]

theorem lowerStr_drop (s : Str) (n : Nat) : lowerStr (s.drop n) = (lowerStr s).drop n :=
  List.map_drop _ _ _

theorem lowerStr_take (s : Str) (n : Nat) : lowerStr (s.take n) = (lowerStr s).take n :=
  List.map_take _ _ _

theorem lowerStr_ne_nil {s : Str} (h : s ≠ []) : lowerStr s ≠ [] := by
  intro hc
  exact h (List.map_eq_nil_iff.1 hc)

/-! ### Concrete rules used in counterexamples and witnesses -/

/-- An enabled literal rule matching the text `#b` and declaring tag `a`. -/
def ruleLitHashB : Rule :=
  { id := "literal-b", type := .literal, matchStr := "#b", tags := ["a"], enabled := some true }

/-- An enabled literal rule matching `zzz` and declaring tag `b` (it
never fires on the example documents, so `b` is managed but not
expected). -/
def ruleLitZzzB : Rule :=
  { id := "literal-zzz", type := .literal, matchStr := "zzz", tags := ["b"], enabled := some true }

/-- An enabled literal rule matching `meeting` and declaring tag
`meetings`. -/
def ruleLitMeeting : Rule :=
  { id := "literal-meeting", type := .literal, matchStr := "meeting", tags := ["meetings"],
    enabled := some true }

/-- A stored keyword rule whose id collides with the slug of `Deploy!`. -/
def storedRule : Rule :=
  { id := "keyword-deploy", type := .keyword, matchStr := "deploy", tags := ["devops"],
    enabled := some true, created := "t0" }

/-- A draft whose generated base id collides with `storedRule`. -/
def draft9 : NewRuleDraft :=
  { type := .keyword, matchStr := "Deploy!", tags := ["devops"] }

/-- A keyword-type rule draft with both `lemma` and `stem` set. -/
def kdraft : RuleDraft :=
  { type := some "keyword", matchStr := some "x", tags := some ["t"],
    useLemma := some true, useStem := some true }

/-- A literal-type rule draft with both `lemma` and `stem` set. -/
def ldraft : RuleDraft :=
  { type := some "literal", matchStr := some "x", tags := some ["t"],
    useLemma := some true, useStem := some true }

/-! ### Claim theorems -/

/-- C1 (amended): the reconciliation diff is idempotent at the level of
tag-set state: for every document, rule set and analyzer, if the
expected-tag set computed on the first pass's output text equals the one
computed on the input, and the output's existing tags are exactly the
input's existing tags minus the removed tags plus the added tags, then a
second reconciliation pass reports no modification (no added and no
removed tags).  As stated over arbitrary documents the claim is false
(`reconcile_nonidempotent_counterexample`): the text edits can change
which rules match, e.g. when a rule's match pattern mentions a tag
token. -/
theorem reconcile_diff_idempotent (A : Analyzer) (rules : List Rule) (text : Str)
    (hexp : (applyRulesToContent A (reconcile A rules text).2 rules).2 =
      (applyRulesToContent A text rules).2)
    (hex : ∀ t, t ∈ extractExistingTags (reconcile A rules text).2 ↔
      ((t ∈ extractExistingTags text ∧ t ∉ (reconcile A rules text).1.removedTags) ∨
        t ∈ (reconcile A rules text).1.addedTags)) :
    (reconcile A rules (reconcile A rules text).2).1.modified = false ∧
    (reconcile A rules (reconcile A rules text).2).1.addedTags = [] ∧
    (reconcile A rules (reconcile A rules text).2).1.removedTags = [] := by
  have hremdef : (reconcile A rules text).1.removedTags =
      tagsToRemoveOf (extractExistingTags text) (allRuleTagsOf rules)
        (applyRulesToContent A text rules).2 := rfl
  have hadddef : (reconcile A rules text).1.addedTags =
      tagsToAddOf (extractExistingTags text) (applyRulesToContent A text rules).2 := rfl
  have haddnil : tagsToAddOf (extractExistingTags (reconcile A rules text).2)
      (applyRulesToContent A (reconcile A rules text).2 rules).2 = [] := by
    rw [hexp]
    apply List.filter_eq_nil_iff.2
    intro t ht
    simp only [Bool.not_eq_true', decide_eq_false_iff_not, not_not]
    apply (hex t).2
    by_cases hx : t ∈ extractExistingTags text
    · left
      refine ⟨hx, ?_⟩
      rw [hremdef]
      intro hmem
      exact (mem_tagsToRemoveOf.1 hmem).2.2 ht
    · right
      rw [hadddef]
      exact mem_tagsToAddOf.2 ⟨ht, hx⟩
  have hremnil : tagsToRemoveOf (extractExistingTags (reconcile A rules text).2)
      (allRuleTagsOf rules) (applyRulesToContent A (reconcile A rules text).2 rules).2 = [] := by
    rw [hexp]
    apply List.filter_eq_nil_iff.2
    intro t ht
    simp only [Bool.and_eq_true, decide_eq_true_eq, Bool.not_eq_true',
      decide_eq_false_iff_not, not_and, not_not]
    intro hart
    by_contra hnexp
    rcases (hex t).1 ht with ⟨hx1, hnrem⟩ | hadd
    · exact hnrem (hremdef ▸ mem_tagsToRemoveOf.2 ⟨hx1, hart, hnexp⟩)
    · exact hnexp (mem_tagsToAddOf.1 (hadddef ▸ hadd)).1
  refine ⟨?_, haddnil, hremnil⟩
  have hmod : (reconcile A rules (reconcile A rules text).2).1.modified =
      (!(tagsToRemoveOf (extractExistingTags (reconcile A rules text).2)
          (allRuleTagsOf rules)
          (applyRulesToContent A (reconcile A rules text).2 rules).2).isEmpty ||
       !(tagsToAddOf (extractExistingTags (reconcile A rules text).2)
          (applyRulesToContent A (reconcile A rules text).2 rules).2).isEmpty) := rfl
  rw [hmod, hremnil, haddnil]
  rfl

/-- C1 counterexample: with the enabled literal rules `#b → {a}` and
`zzz → {b}` on the document `#b`, the first pass removes `#b` and
inserts `#a` (which un-matches the first rule), so the second pass on
the produced text removes the freshly inserted tag `a` and reports a
modification — reconciliation as stated in the claim is not idempotent. -/
theorem reconcile_nonidempotent_counterexample :
    (reconcile toyAnalyzer [ruleLitHashB, ruleLitZzzB]
      ((reconcile toyAnalyzer [ruleLitHashB, ruleLitZzzB] "#b".data).2)).1.modified = true ∧
    (reconcile toyAnalyzer [ruleLitHashB, ruleLitZzzB]
      ((reconcile toyAnalyzer [ruleLitHashB, ruleLitZzzB] "#b".data).2)).1.removedTags
      = ["a"] := by
  constructor
  · decide
  · decide

/-- C1 witness: for the rule `meeting → {meetings}` on the document
`meeting`, the stability hypotheses hold and the second pass reports no
modification. -/
theorem reconcile_diff_idempotent_witness :
    (reconcile toyAnalyzer [ruleLitMeeting]
      (reconcile toyAnalyzer [ruleLitMeeting] "meeting".data).2).1.modified = false :=
  (reconcile_diff_idempotent toyAnalyzer [ruleLitMeeting] "meeting".data
    (by decide)
    (by
      intro t
      have h1 : extractExistingTags
          (reconcile toyAnalyzer [ruleLitMeeting] "meeting".data).2 = ["meetings"] := by decide
      have h2 : extractExistingTags "meeting".data = [] := by decide
      have h3 : (reconcile toyAnalyzer [ruleLitMeeting] "meeting".data).1.removedTags = [] := by
        decide
      have h4 : (reconcile toyAnalyzer [ruleLitMeeting] "meeting".data).1.addedTags =
          ["meetings"] := by decide
      rw [h1, h2, h3, h4]
      simp)).1

/-- C2: tag ownership fails in the code.  With the single enabled rule
`zzz → {b}` (which does not fire) on `x #b #b-c`, the managed tag `b`
must be removed; but `removeTags`' regex `#b\b` also matches the prefix
of the unmanaged tag token `#b-c` (the boundary `\b` holds before `-`),
so the document becomes `x  -c` and the user-authored tag `b-c`, which
is outside the managed set, is destroyed.  The claim (and spec) state
such tags are never touched; the word-boundary guard is the code's
attempt at exactly that and fails for tag names containing `-` or `/`. -/
theorem removeTags_destroys_unmanaged_tag :
    "b-c" ∈ extractExistingTags "x #b #b-c".data ∧
    "b-c" ∉ allRuleTagsOf [ruleLitZzzB] ∧
    (reconcile toyAnalyzer [ruleLitZzzB] "x #b #b-c".data).1.removedTags = ["b"] ∧
    (reconcile toyAnalyzer [ruleLitZzzB] "x #b #b-c".data).2 = "x  -c".data ∧
    "b-c" ∉ extractExistingTags (reconcile toyAnalyzer [ruleLitZzzB] "x #b #b-c".data).2 := by
  refine ⟨by decide, by decide, by decide, by decide, by decide⟩

/-- C3 (amended): the literal matcher satisfies the claim: for every
document and non-empty phrase (the source loops forever on the empty
phrase), `matchLiteral` returns occurrences in left-to-right order with
pairwise non-overlapping `[start, end)` spans, each span of the phrase's
length, lying inside the document, carrying the document slice as its
text, and locating an actual case-insensitive occurrence of the phrase.
For keyword and entity rules the claim fails
(`matchKeyword_duplicate_spans_counterexample`): their occurrence
offsets are recomputed with `text.indexOf(occurrenceText)` from position
0, so repeated tokens all receive the first occurrence's span; POS
pattern windows can also overlap. -/
theorem matchLiteral_ordered_spans (text phrase : Str) (hne : phrase ≠ []) :
    (matchLiteral text phrase).Pairwise (fun a b => a.endPos ≤ b.start) ∧
    ∀ m ∈ matchLiteral text phrase,
      m.endPos = m.start + phrase.length ∧ m.endPos ≤ text.length ∧
      m.text = jsSubstring text m.start m.endPos ∧
      lowerStr (jsSubstring text m.start m.endPos) = lowerStr phrase := by
  have hlp : lowerStr phrase ≠ [] := lowerStr_ne_nil hne
  constructor
  · exact litScan_pairwise hlp _ _
  · intro m hm
    obtain ⟨h1, h2, h3, h4, h5, h6⟩ := litScan_mem hlp (text.length + 1) 0 m hm
    have hlen : (lowerStr phrase).length = phrase.length := by simp [lowerStr]
    have hlent : (lowerStr text).length = text.length := by simp [lowerStr]
    refine ⟨by rw [← hlen]; exact h2, by rw [← hlent]; exact h3, h5, ?_⟩
    have hpre := List.prefix_iff_eq_take.1 (List.isPrefixOf_iff_prefix.1 h4)
    rw [hlen] at hpre
    have harith : m.endPos - m.start = phrase.length := by
      rw [hlen] at h2
      omega
    unfold jsSubstring
    rw [harith, lowerStr_take, lowerStr_drop]
    exact hpre.symm

/-- C3 witness: on `aaaa` the phrase `aa` yields spans `[0,2)` and
`[2,4)`, ordered and non-overlapping. -/
theorem matchLiteral_ordered_spans_witness :
    ("aa".data ≠ ([] : Str)) ∧
    (matchLiteral "aaaa".data "aa".data).Pairwise (fun a b => a.endPos ≤ b.start) :=
  ⟨by decide, (matchLiteral_ordered_spans "aaaa".data "aa".data (by decide)).1⟩

/-- C3 counterexample: on `dog dog` the keyword matcher (with a
whitespace tokenizer producing the two `dog` tokens in document order)
returns two occurrences that both carry span `[0, 3)` — the second
occurrence does not locate its own position and the spans overlap, so
the claimed ordered non-overlapping property fails for keyword rules. -/
theorem matchKeyword_duplicate_spans_counterexample :
    (matchKeyword toyAnalyzer "dog dog".data "dog".data false false).map
      (fun m => (m.start, m.endPos)) = [(0, 3), (0, 3)] ∧
    ¬ (matchKeyword toyAnalyzer "dog dog".data "dog".data false false).Pairwise
      (fun a b => a.endPos ≤ b.start) := by
  constructor
  · decide
  · decide

/-- C4: dry-run parity.  For every analyzer, every rule set in which all
rules are enabled (as produced by `getRules({enabled: true})` in
`syncCommand`) and every directory of documents, the dry-run branch
reports exactly the added and removed tags that a real sync's
`processFile` reports per file, and it leaves every file's content
unchanged. -/
theorem syncDry_parity (A : Analyzer) (rules : List Rule) (files : List Str)
    (hen : ∀ r ∈ rules, r.enabledOn = true) :
    (syncDirDry A rules files).1 =
      (syncDirReal A rules files).1.map (fun res => (res.addedTags, res.removedTags)) ∧
    (syncDirDry A rules files).2 = files := by
  refine ⟨?_, rfl⟩
  unfold syncDirDry syncDirReal
  rw [List.map_map]
  apply List.map_congr_left
  intro c _
  show dryRunFile A rules c =
    ((reconcile A rules c).1.addedTags, (reconcile A rules c).1.removedTags)
  unfold dryRunFile
  rw [allRuleTags_all_enabled rules hen]
  rfl

/-- C4 witness: a one-file directory with an enabled rule set; the
dry-run report equals the real sync's report. -/
theorem syncDry_parity_witness :
    (∀ r ∈ [ruleLitZzzB], r.enabledOn = true) ∧
    (syncDirDry toyAnalyzer [ruleLitZzzB] ["x #b".data]).1 =
      (syncDirReal toyAnalyzer [ruleLitZzzB] ["x #b".data]).1.map
        (fun res => (res.addedTags, res.removedTags)) :=
  ⟨by decide, (syncDry_parity toyAnalyzer [ruleLitZzzB] ["x #b".data] (by decide)).1⟩

/-- C5 counterexample: on the document ```` ```x\n#a\n``` ```` the code's
`startsWith`-based fence detection opens a block at the line ```` ```x ````
and closes it at the final ```` ``` ````, excluding the tag `a`; under the
claim's "line consisting solely of a triple-backtick marker" rule only
the final line toggles (opening an unclosed block with no range), so the
claim's set contains `a`.  The two disagree. -/
theorem solely_fence_counterexample :
    extractExistingTags "```x\n#a\n```".data = [] ∧
    specExtractExistingTags "```x\n#a\n```".data = ["a"] := by
  constructor
  · decide
  · decide

/-- C6: the literal non-overlap bound.  For every document and non-empty
phrase, `matchLiteral` returns at most `⌊N / L⌋` occurrences, because
the scan resumes immediately past each matched span. -/
theorem matchLiteral_count_bound (text phrase : Str) (hne : phrase ≠ []) :
    (matchLiteral text phrase).length ≤ text.length / phrase.length := by
  have hlp : lowerStr phrase ≠ [] := lowerStr_ne_nil hne
  have hb := @litScan_length_le text (lowerStr text) (lowerStr phrase) hlp
    (text.length + 1) 0
  unfold matchLiteral
  calc (litScan text (lowerStr text) (lowerStr phrase) 0 (text.length + 1)).length
      ≤ ((lowerStr text).length - 0) / (lowerStr phrase).length := hb
    _ = text.length / phrase.length := by simp [lowerStr]

/-- C6 witness: `aa` over `aaaa` yields 2 ≤ ⌊4/2⌋ occurrences. -/
theorem matchLiteral_count_bound_witness :
    ("aa".data ≠ ([] : Str)) ∧
    (matchLiteral "aaaa".data "aa".data).length ≤
      ("aaaa".data).length / ("aa".data).length :=
  ⟨by decide, matchLiteral_count_bound "aaaa".data "aa".data (by decide)⟩

/-- C7 (amended): when a debounce timer fires for a path whose non-empty
content hash differs from the stored hash, the reconciler is run and the
new hash is stored in the *in-memory* watcher map regardless of whether
the file was modified — the post-reconciliation hash when it was, the
pre-computed current hash when it was not; but the map is persisted to
disk (`saveWatcherState`) only when the reconciler modified the file
(see `watcher_no_persist_counterexample` for the unmodified case, which
the claim as stated gets wrong). -/
theorem timerFire_amended (mem disk : List (String × String))
    (path h hashAfter : String) (modified : Bool)
    (h1 : h ≠ "") (h2 : lookupEntry mem path ≠ some h) :
    (timerFire mem disk path h modified hashAfter).ran = true ∧
    lookupEntry (timerFire mem disk path h modified hashAfter).mem path =
      some (if modified then hashAfter else h) ∧
    (timerFire mem disk path h modified hashAfter).disk =
      (if modified then (timerFire mem disk path h modified hashAfter).mem else disk) := by
  unfold timerFire
  rw [if_pos ⟨h1, h2⟩]
  cases modified
  · simp [setEntry_lookup]
  · simp [setEntry_lookup]

/-- C7 counterexample: a timer fires on a fresh path with hash `h1`; the
reconciler runs but does not modify the file.  The in-memory map records
`h1`, but the persisted (on-disk) watcher state is not rewritten — it
still lacks the path — contradicting the claim that the new hash is
stored in the persisted state regardless of modification. -/
theorem watcher_no_persist_counterexample :
    (timerFire [] [] "a.md" "h1" false "h1").ran = true ∧
    lookupEntry (timerFire [] [] "a.md" "h1" false "h1").mem "a.md" = some "h1" ∧
    (timerFire [] [] "a.md" "h1" false "h1").disk = [] ∧
    lookupEntry (timerFire [] [] "a.md" "h1" false "h1").disk "a.md" = none := by
  refine ⟨by decide, by decide, by decide, by decide⟩

/-- C7 witness: a modified-file firing persists the post-reconciliation
hash; the theorem's hypotheses hold at this concrete input. -/
theorem timerFire_amended_witness :
    ("h1" ≠ "") ∧ lookupEntry [("b.md", "h0")] "a.md" ≠ some "h1" ∧
    lookupEntry (timerFire [("b.md", "h0")] [("b.md", "h0")] "a.md" "h1" true "h2").mem "a.md" =
      some (if true then "h2" else "h1") :=
  ⟨by decide, by decide,
    (timerFire_amended [("b.md", "h0")] [("b.md", "h0")] "a.md" "h1" "h2" true
      (by decide) (by decide)).2.1⟩

/-- C8 (amended): `validateRule` flags the lemma/stem conflict only for
drafts whose `type` is exactly `keyword` (the source guards the check
with `rule.type === 'keyword'`): for those drafts it returns
`valid = false` with the conflict message in the returned violations.
For any other type the conflict passes validation
(`validateRule_nonkeyword_conflict_counterexample`).  The store's
`addRule` itself performs no validation; persistence of a conflicting
keyword rule is prevented by the CLI command's own `--lemma`/`--stem`
check, not by `validateRule`. -/
theorem validateRule_keyword_conflict (d : RuleDraft) (ht : d.type = some "keyword")
    (hl : d.useLemma = some true) (hs : d.useStem = some true) :
    (validateRule d).1 = false ∧ lemmaStemError ∈ (validateRule d).2 := by
  have hc : conflictErrors d = [lemmaStemError] := by
    unfold conflictErrors
    rw [if_pos ⟨ht, hl, hs⟩]
  constructor
  · simp [validateRule, hc]
  · simp [validateRule, hc]

/-- C8 counterexample: a literal-type draft with both `lemma` and `stem`
set to true validates successfully with no violations, contradicting the
claim that the conflict is rejected regardless of the draft's type. -/
theorem validateRule_nonkeyword_conflict_counterexample :
    ldraft.useLemma = some true ∧ ldraft.useStem = some true ∧
    validateRule ldraft = (true, []) := by
  refine ⟨by decide, by decide, by decide⟩

/-- C8 witness: the keyword-type draft with both flags set is rejected
with the conflict message listed. -/
theorem validateRule_keyword_conflict_witness :
    kdraft.type = some "keyword" ∧ kdraft.useLemma = some true ∧
    kdraft.useStem = some true ∧ (validateRule kdraft).1 = false ∧
    lemmaStemError ∈ (validateRule kdraft).2 :=
  ⟨rfl, rfl, rfl,
    (validateRule_keyword_conflict kdraft rfl rfl rfl).1,
    (validateRule_keyword_conflict kdraft rfl rfl rfl).2⟩

/-- C9: id generation.  For every store whose rule ids are pairwise
distinct, `addRule` appends a rule carrying the id built from the slug
of `match` prefixed with the rule type (`generateRuleId`, which
lowercases, collapses non-alphanumeric runs to dashes, trims a
leading/trailing dash and truncates to 50 characters); when that base id
collides, the stored id is `base-k` for the smallest counter `k ≥ 2`
whose candidate is free.  The resulting id is distinct from every
existing id and the store's ids remain pairwise distinct. -/
theorem addRule_id_fresh_unique (rules : List Rule) (draft : NewRuleDraft) (now : String)
    (hnd : (rules.map (·.id)).Nodup) :
    (addRule rules draft now).1.id ∉ rules.map (·.id) ∧
    (addRule rules draft now).2 = rules ++ [(addRule rules draft now).1] ∧
    ((addRule rules draft now).2.map (·.id)).Nodup ∧
    (((addRule rules draft now).1.id = generateRuleId draft.type draft.matchStr ∧
        generateRuleId draft.type draft.matchStr ∉ rules.map (·.id)) ∨
      (generateRuleId draft.type draft.matchStr ∈ rules.map (·.id) ∧
        ∃ k, 2 ≤ k ∧
          (addRule rules draft now).1.id =
            generateRuleId draft.type draft.matchStr ++ "-" ++ Nat.repr k ∧
          ∀ j, 2 ≤ j → j < k →
            (generateRuleId draft.type draft.matchStr ++ "-" ++ Nat.repr j) ∈
              rules.map (·.id))) := by
  obtain ⟨hfree, hchar⟩ :=
    ensureUniqueId_spec (rules.map (·.id)) (generateRuleId draft.type draft.matchStr)
  have hid : (addRule rules draft now).1.id =
      ensureUniqueId (rules.map (·.id)) (generateRuleId draft.type draft.matchStr) := rfl
  refine ⟨hid ▸ hfree, rfl, ?_, ?_⟩
  · have hmap : ((rules ++ [(addRule rules draft now).1]).map (·.id)) =
        rules.map (·.id) ++ [(addRule rules draft now).1.id] := by
      rw [List.map_append]
      rfl
    show ((rules ++ [(addRule rules draft now).1]).map (·.id)).Nodup
    rw [hmap, List.nodup_append]
    refine ⟨hnd, List.nodup_singleton _, ?_⟩
    intro x hx hx1
    rw [List.mem_singleton] at hx1
    subst hx1
    exact (hid ▸ hfree) hx
  · rcases hchar with ⟨hnm, heq⟩ | ⟨hm, k, hk1, hk2, hk3⟩
    · exact Or.inl ⟨hid ▸ heq, hnm⟩
    · exact Or.inr ⟨hm, k, hk1, hid ▸ hk2, hk3⟩

/-- C9 witness: adding a draft whose slug collides with the stored id
`keyword-deploy` produces a fresh id. -/
theorem addRule_id_fresh_unique_witness :
    ([storedRule].map (·.id)).Nodup ∧
    (addRule [storedRule] draft9 "t1").1.id ∉ [storedRule].map (·.id) :=
  ⟨by decide, (addRule_id_fresh_unique [storedRule] draft9 "t1" (by decide)).1⟩

/-- C10: store atomicity on a missing id.  For every store and id not
present in it, `updateRule` returns null and `removeRule` returns false,
neither calls `saveConfig` (third component `false`), and the rule list
is unchanged. -/
theorem store_missing_id_noop (rules : List Rule) (id : String) (u : RuleUpdates)
    (now : String) (h : id ∉ rules.map (·.id)) :
    updateRule rules id u now = (none, rules, false) ∧
    removeRule rules id = (false, rules, false) := by
  constructor
  · unfold updateRule
    have hnone : rules.findIdx? (fun r => r.id = id) = none :=
      findIdx?_eq_none_of_all fun r hr => by
        simp only [decide_eq_false_iff_not]
        intro he
        exact h (List.mem_map.2 ⟨r, hr, he⟩)
    rw [hnone]
  · unfold removeRule
    have hf : rules.filter (fun r => r.id ≠ id) = rules :=
      List.filter_eq_self.2 fun r hr => by
        simp only [ne_eq, decide_not, Bool.not_eq_true', decide_eq_false_iff_not]
        intro he
        exact h (List.mem_map.2 ⟨r, hr, he⟩)
    simp only [hf, lt_irrefl, if_false]

/-- C10 witness: on a one-rule store, operations with the id `missing`
return null/false and leave the store unsaved and unchanged. -/
theorem store_missing_id_noop_witness :
    ("missing" ∉ [storedRule].map (·.id)) ∧
    updateRule [storedRule] "missing" {} "t2" = (none, [storedRule], false) ∧
    removeRule [storedRule] "missing" = (false, [storedRule], false) :=
  ⟨by decide,
    (store_missing_id_noop [storedRule] "missing" {} "t2" (by decide)).1,
    (store_missing_id_noop [storedRule] "missing" {} "t2" (by decide)).2⟩
